import Mathlib

/-!
# Long-poll registry (`lpoll.LPoll`) of ventu-io/go-pubsub

A shallow embedding of `src/lpoll/lpoll.go`.

* A Go `map[string]T` is a `GoMap T`: a list of key/value entries whose keys are pairwise
  distinct.  `range` visits the entries in the order of that list; Go leaves the order
  unspecified, and every property below is stated with membership, counting or permutations,
  so none of them depends on it.
* An operation is a function of the registry it is called on: `lp.mx` has no effect on the
  result of a call and is not part of the state.  The use an operation makes of the mutex is
  the subject of the traced operations (`LPoll.GetRun`, `LPoll.DropRun`, ...), which list
  the lock, map and dispatch statements of a call in the order of the source and leave the
  same registry and the same dispatched calls as the operations themselves.
* `go sub.Publish(data, topic)` and `go sub.Drop()` start goroutines on a `Sub`; an operation
  returns the list of the calls it has dispatched, next to the registry it leaves behind.
* `time.Duration` is an integer number of nanoseconds; no arithmetic is done on it.
-/

namespace lpoll

/-! ## Go maps with string keys -/

/-- A Go map with string keys: its entries, with pairwise distinct keys. -/
structure GoMap (α : Type) where
  entries : List (String × α)
  nodup : (entries.map Prod.fst).Nodup

namespace GoMap

variable {α : Type}

/-- The entries of a list whose key is not `k`. -/
def eraseKey (k : String) (l : List (String × α)) : List (String × α) :=
  l.filter (fun e => !(e.1 == k))

theorem eraseKey_sublist (k : String) (l : List (String × α)) :
    ((eraseKey k l).map Prod.fst).Sublist (l.map Prod.fst) :=
  (List.filter_sublist l).map Prod.fst

theorem not_mem_keys_eraseKey (k : String) (l : List (String × α)) :
    k ∉ (eraseKey k l).map Prod.fst := by
  intro h
  obtain ⟨e, he, hk⟩ := List.mem_map.1 h
  have := (List.mem_filter.1 he).2
  simp [hk] at this

theorem nodup_eraseKey (k : String) {l : List (String × α)} (h : (l.map Prod.fst).Nodup) :
    ((eraseKey k l).map Prod.fst).Nodup :=
  h.sublist (eraseKey_sublist k l)

theorem nodup_eraseKey_append (k : String) (v : α) {l : List (String × α)}
    (h : (l.map Prod.fst).Nodup) : ((eraseKey k l ++ [(k, v)]).map Prod.fst).Nodup := by
  rw [List.map_append, List.nodup_append]
  refine ⟨nodup_eraseKey k h, by simp, ?_⟩
  intro a ha hb
  have : a = k := by simpa using hb
  exact not_mem_keys_eraseKey k l (this ▸ ha)

/-- The empty map, `make(map[string]T)`. -/
def empty : GoMap α := ⟨[], List.nodup_nil⟩

/-- Lookup, `v, ok := m[k]`: `some v` when `ok`, `none` otherwise. -/
def get? (m : GoMap α) (k : String) : Option α :=
  (m.entries.find? (fun e => e.1 == k)).map Prod.snd

/-- Removal, `delete(m, k)`. -/
def delete (m : GoMap α) (k : String) : GoMap α :=
  ⟨eraseKey k m.entries, nodup_eraseKey k m.nodup⟩

/-- Assignment, `m[k] = v`: a binding of `k` that is already there is replaced. -/
def set (m : GoMap α) (k : String) (v : α) : GoMap α :=
  ⟨eraseKey k m.entries ++ [(k, v)], nodup_eraseKey_append k v m.nodup⟩

/-- The keys of the map. -/
def keys (m : GoMap α) : List String := m.entries.map Prod.fst

/-- The values of the map, one for each key. -/
def values (m : GoMap α) : List α := m.entries.map Prod.snd

/-- The number of entries, `len(m)`. -/
def len (m : GoMap α) : Nat := m.entries.length

end GoMap

/-! ## Subscriptions -/

/-- A `time.Duration`. -/
abbrev Duration := Int

/-- The closures handed to `NewSub` as expiry callback.  The only one in the source is the
function literal of `LPoll.Subscribe` (lines 36 to 41), which captures the registry. -/
inductive Callback where
  | deleteFromSubs
deriving DecidableEq, Repr

/-- Modelled from the spec: the type `Sub`, declared in a file of the package that is not
under src/.  Its `id` is the external handle and map key, `topics` lists the keys of its
topic map (the topic set, fixed at creation), `timeout` is the inactivity timeout, and
`onExpire` is the callback the expiry timer calls with `id`.  The buffer, the timer and the
`closed` flag belong to the subscription itself and are not read by the registry. -/
structure Sub where
  id : String
  timeout : Duration
  onExpire : Callback
  topics : List String
deriving DecidableEq, Repr

/-- Modelled from the spec: `NewSub(timeout, callback, topics...)`, defined in a file that is
not under src/: a new subscription with a fresh id, the given topic set and an expiry timer
of length `timeout` that calls `callback(id)`.  The generated id is the argument `fresh`. -/
def NewSub (fresh : String) (timeout : Duration) (callback : Callback)
    (topics : List String) : Sub :=
  { id := fresh, timeout := timeout, onExpire := callback, topics := topics.dedup }

/-- Modelled from the spec: the test of `Sub.Publish` (Offer) on an open subscription; the
payload is appended to the buffer when the topic is one of the subscription's topics. -/
def Sub.accepts (sub : Sub) (topic : String) : Bool := decide (topic ∈ sub.topics)

/-- A dispatched `go sub.Publish(data, topic)`. -/
structure Offer (δ : Type) where
  sub : Sub
  data : δ
  topic : String

/-- A dispatched `go sub.Drop()`. -/
structure DropCall where
  sub : Sub
deriving DecidableEq, Repr

/-- The channel returned by `sub.Get(polltime)`, named by the call that returns it. -/
structure GetCall where
  sub : Sub
  polltime : Duration
deriving DecidableEq, Repr

/-! ## The registry -/

/-- The registry `LPoll`: the map `subs` from subscription id to subscription. -/
structure LPoll where
  subs : GoMap Sub

/-- `New()`. -/
def New : LPoll := { subs := GoMap.empty }

variable {δ : Type}

/-- `Publish(data, topics...)`: for each topic, for each registered subscription, one
`go sub.Publish(data, topic)`. -/
def LPoll.Publish (lp : LPoll) (data : δ) (topics : List String) : LPoll × List (Offer δ) :=
  (lp, topics.foldl (fun spawned topic =>
    lp.subs.entries.foldl (fun spawned e => spawned ++ [⟨e.2, data, topic⟩]) spawned) [])

/-- The function literal of `Subscribe`, called by the expiry timer with the id of its
subscription: `delete(lp.subs, id)`. -/
def LPoll.onExpire (lp : LPoll) (id : String) : LPoll :=
  { subs := lp.subs.delete id }

/-- Running a callback held by a subscription. -/
def LPoll.runCallback (lp : LPoll) : Callback → String → LPoll
  | Callback.deleteFromSubs, id => lp.onExpire id

/-- `Subscribe(timeout, topics...)`: `lp.subs[sub.id] = sub` for the new `sub`, whose id is
returned. -/
def LPoll.Subscribe (lp : LPoll) (fresh : String) (timeout : Duration) (topics : List String) :
    LPoll × String :=
  let sub := NewSub fresh timeout Callback.deleteFromSubs topics
  ({ subs := lp.subs.set sub.id sub }, sub.id)

/-- `Get(id, polltime)`: the channel of `sub.Get(polltime)` and a nil error when `id` is in
the map, a nil channel and an error otherwise. -/
def LPoll.Get (lp : LPoll) (id : String) (polltime : Duration) :
    LPoll × Option GetCall × Option String :=
  match lp.subs.get? id with
  | some sub => (lp, some ⟨sub, polltime⟩, none)
  | none => (lp, none, some "incorrect subscription id")

/-- `Drop(id)`: when `id` is in the map, `go sub.Drop()` and `delete(lp.subs, id)`. -/
def LPoll.Drop (lp : LPoll) (id : String) : LPoll × List DropCall :=
  match lp.subs.get? id with
  | some sub => ({ subs := lp.subs.delete id }, [⟨sub⟩])
  | none => (lp, [])

/-- One turn of the loop of `Shutdown` at the entry `e` of the map being ranged over: an entry
removed before it is reached is not produced; otherwise `go sub.Drop()` and
`delete(lp.subs, id)`. -/
def LPoll.shutdownStep (st : LPoll × List DropCall) (e : String × Sub) : LPoll × List DropCall :=
  match st.1.subs.get? e.1 with
  | some _ => ({ subs := st.1.subs.delete e.1 }, st.2 ++ [⟨e.2⟩])
  | none => st

/-- `Shutdown()`. -/
def LPoll.Shutdown (lp : LPoll) : LPoll × List DropCall :=
  lp.subs.entries.foldl LPoll.shutdownStep (lp, [])

/-- The first loop of `Topics()`: the map `topics` after `topics[topic] = true` for every
topic of every registered subscription. -/
def LPoll.topicSet (lp : LPoll) : GoMap Bool :=
  lp.subs.entries.foldl (fun topics e =>
    e.2.topics.foldl (fun topics topic => topics.set topic true) topics) GoMap.empty

/-- `Topics()`: the keys of the map `topics` appended to `res`. -/
def LPoll.Topics (lp : LPoll) : LPoll × List String :=
  (lp, lp.topicSet.entries.foldl (fun res e => res ++ [e.1]) [])


/-- The registry invariant of `Subscribe`, the only operation that writes an entry
(`lp.subs[sub.id] = sub`): every subscription is stored under its own id. -/
def LPoll.KeyedById (lp : LPoll) : Prop :=
  ∀ e ∈ lp.subs.entries, e.1 = e.2.id

/-- The number of dispatched offers that go to `sub` and carry one of its topics: the offers
whose payload `sub` appends to its buffer. -/
def matchingOffers {δ : Type} (sub : Sub) (calls : List (Offer δ)) : Nat :=
  calls.countP (fun o => decide (o.sub = sub) && sub.accepts o.topic)

/-- The two ways of removing an id from the registry: `Drop(id)` and the expiry callback. -/
inductive Removal where
  | drop
  | expire
deriving DecidableEq, Repr

/-- The registry after one removal of `id`. -/
def LPoll.remove (lp : LPoll) (id : String) : Removal → LPoll
  | Removal.drop => (lp.Drop id).1
  | Removal.expire => lp.onExpire id

/-- The registry after a sequence of removals of `id`. -/
def LPoll.removeAll (lp : LPoll) (id : String) (rs : List Removal) : LPoll :=
  rs.foldl (fun lp r => lp.remove id r) lp

/-- The registries that the operations build from `New()`.  `Publish`, `Get`, `List` and
`Topics` return the registry they were given. -/
inductive Reachable : LPoll → Prop where
  | new : Reachable New
  | subscribe (lp : LPoll) (fresh : String) (timeout : Duration) (topics : List String) :
      Reachable lp → Reachable (lp.Subscribe fresh timeout topics).1
  | drop (lp : LPoll) (id : String) : Reachable lp → Reachable (lp.Drop id).1
  | expire (lp : LPoll) (id : String) : Reachable lp → Reachable (lp.onExpire id)
  | shutdown (lp : LPoll) : Reachable lp → Reachable (lp.Shutdown).1

/-! ## The operations with their use of the mutex

The statements of an operation that touch the mutex `lp.mx`, the map `lp.subs` or a
subscription, in the order in which a call runs them. -/

/-- One such statement. -/
inductive Event where
  /-- `lp.mx.Lock()` -/
  | lock
  /-- `lp.mx.Unlock()`, deferred or not -/
  | unlock
  /-- `lp.subs[id]` read with the comma-ok form -/
  | lookup (id : String)
  /-- entering `range lp.subs` -/
  | range
  /-- an entry that `range lp.subs` produces -/
  | next (id : String)
  /-- `lp.subs[id] = sub` -/
  | insert (id : String)
  /-- `delete(lp.subs, id)` -/
  | delete (id : String)
  /-- `go sub.Publish(data, topic)` -/
  | goPublish (sub : Sub) (topic : String)
  /-- `go sub.Drop()` -/
  | goDrop (sub : Sub)
  /-- `sub.Get(polltime)`, called in the goroutine of the caller -/
  | callGet (sub : Sub) (polltime : Duration)
deriving DecidableEq, Repr

/-- The statements run by one call. -/
abbrev Trace := List Event

/-- The statements that read the map `lp.subs`. -/
def Event.isRead : Event → Bool
  | Event.lookup _ => true
  | Event.range => true
  | Event.next _ => true
  | _ => false

/-- The statements that write the map `lp.subs`. -/
def Event.isWrite : Event → Bool
  | Event.insert _ => true
  | Event.delete _ => true
  | _ => false

/-- The statements that read or write the map `lp.subs`. -/
def Event.isAccess (e : Event) : Bool := e.isRead || e.isWrite

/-- Each statement of a trace with the critical section in which it runs: `some k` inside
the critical section opened by the lock number `k` of the trace, `none` when the mutex is not
held.  `cur` is the section at the start and `n` the number of locks taken so far. -/
def stamp : Option Nat → Nat → Trace → List (Event × Option Nat)
  | _, _, [] => []
  | cur, n, e :: tr =>
    (e, cur) :: if e = Event.lock then stamp (some n) (n + 1) tr
      else if e = Event.unlock then stamp none n tr
      else stamp cur n tr

/-- The statements of a call with their critical sections; the mutex is free at the start. -/
def sections (tr : Trace) : List (Event × Option Nat) := stamp none 0 tr

/-- Every read and every write of the map runs while the mutex is held. -/
def Guarded (tr : Trace) : Prop :=
  ∀ p ∈ sections tr, p.1.isAccess = true → p.2.isSome = true

/-- Every write of the map runs while the mutex is held. -/
def WritesGuarded (tr : Trace) : Prop :=
  ∀ p ∈ sections tr, p.1.isWrite = true → p.2.isSome = true

/-- The mutex is never taken. -/
def LockFree (tr : Trace) : Prop :=
  ∀ p ∈ sections tr, p.2 = none ∧ p.1 ≠ Event.lock

/-- Two statements run inside one critical section. -/
def SameSection (tr : Trace) (e1 e2 : Event) : Prop :=
  ∃ k, (e1, some k) ∈ sections tr ∧ (e2, some k) ∈ sections tr

/-- The mutex is locked only when free, unlocked only when held, and free when the trace
started with `held` ends. -/
def balancedFrom : Bool → Trace → Bool
  | held, [] => !held
  | held, e :: tr =>
    if e = Event.lock then !held && balancedFrom true tr
    else if e = Event.unlock then held && balancedFrom false tr
    else balancedFrom held tr

/-- A trace that leaves the mutex alone. -/
def Plain (tr : Trace) : Prop := ∀ e ∈ tr, e ≠ Event.lock ∧ e ≠ Event.unlock

/-- The `go sub.Drop()` statements of a trace. -/
def dropsOf (tr : Trace) : List DropCall :=
  tr.filterMap (fun e => match e with
    | Event.goDrop sub => some ⟨sub⟩
    | _ => none)

/-- The `go sub.Publish(data, topic)` statements of a trace, for the payload `data`. -/
def offersOf {δ : Type} (data : δ) (tr : Trace) : List (Offer δ) :=
  tr.filterMap (fun e => match e with
    | Event.goPublish sub topic => some ⟨sub, data, topic⟩
    | _ => none)

/-- `Publish` (lines 24 to 33): lock, deferred unlock, and for each topic a `range` over the
map with one `go sub.Publish` for each entry. -/
def LPoll.PublishRun (lp : LPoll) (topics : List String) : LPoll × Trace :=
  (lp, topics.foldl (fun log topic =>
    lp.subs.entries.foldl (fun log e => log ++ [Event.next e.1, Event.goPublish e.2 topic])
      (log ++ [Event.range])) [Event.lock] ++ [Event.unlock])

/-- The function literal of `Subscribe` (lines 36 to 41): lock, delete, unlock. -/
def LPoll.onExpireRun (lp : LPoll) (id : String) : LPoll × Trace :=
  ({ subs := lp.subs.delete id }, [Event.lock, Event.delete id, Event.unlock])

/-- `Subscribe` (lines 35 to 47): `NewSub`, then lock, insert, unlock. -/
def LPoll.SubscribeRun (lp : LPoll) (fresh : String) (timeout : Duration)
    (topics : List String) : LPoll × Trace :=
  let sub := NewSub fresh timeout Callback.deleteFromSubs topics
  ({ subs := lp.subs.set sub.id sub }, [Event.lock, Event.insert sub.id, Event.unlock])

/-- `Get` (lines 49 to 56): the lookup, under the comment `do not lock`, then `sub.Get` when
the id is found. -/
def LPoll.GetRun (lp : LPoll) (id : String) (polltime : Duration) : LPoll × Trace :=
  match lp.subs.get? id with
  | some sub => (lp, [Event.lookup id, Event.callGet sub polltime])
  | none => (lp, [Event.lookup id])

/-- `Drop` (lines 58 to 66): the lookup, and when the id is found `go sub.Drop()`, then lock,
delete, unlock. -/
def LPoll.DropRun (lp : LPoll) (id : String) : LPoll × Trace :=
  match lp.subs.get? id with
  | some sub => ({ subs := lp.subs.delete id },
      [Event.lookup id, Event.goDrop sub, Event.lock, Event.delete id, Event.unlock])
  | none => (lp, [Event.lookup id])

/-- One turn of the loop of `Shutdown` with its statements. -/
def LPoll.shutdownStepRun (st : LPoll × Trace) (e : String × Sub) : LPoll × Trace :=
  match st.1.subs.get? e.1 with
  | some _ => ({ subs := st.1.subs.delete e.1 },
      st.2 ++ [Event.next e.1, Event.goDrop e.2, Event.delete e.1])
  | none => st

/-- `Shutdown` (lines 68 to 76): lock, deferred unlock, and the loop over the map. -/
def LPoll.ShutdownRun (lp : LPoll) : LPoll × Trace :=
  ((lp.subs.entries.foldl LPoll.shutdownStepRun (lp, [Event.lock, Event.range])).1,
    (lp.subs.entries.foldl LPoll.shutdownStepRun (lp, [Event.lock, Event.range])).2
      ++ [Event.unlock])

/-- `List` (lines 78 to 87): lock, deferred unlock, and the loop over the map. -/
def LPoll.ListRun (lp : LPoll) : LPoll × Trace :=
  (lp, lp.subs.entries.foldl (fun log e => log ++ [Event.next e.1]) [Event.lock, Event.range]
    ++ [Event.unlock])

/-- `Topics` (lines 89 to 105): lock, the loop over the map, unlock; the loops over
`sub.topics` and over the local map `topics` do not touch `lp.subs`. -/
def LPoll.TopicsRun (lp : LPoll) : LPoll × Trace :=
  (lp, lp.subs.entries.foldl (fun log e => log ++ [Event.next e.1]) [Event.lock, Event.range]
    ++ [Event.unlock])

/-- `List()`: the ids appended to `res` while ranging over the map. -/
def LPoll.List (lp : LPoll) : LPoll × List String :=
  (lp, lp.subs.entries.foldl (fun res e => res ++ [e.1]) [])

/-! ## Example registries -/

/-- A subscription to the topics `a` and `b`. -/
def subAB : Sub := { id := "s1", timeout := 5, onExpire := Callback.deleteFromSubs, topics := ["a", "b"] }

/-- A subscription to the topic `c`. -/
def subC : Sub := { id := "s2", timeout := 7, onExpire := Callback.deleteFromSubs, topics := ["c"] }

/-- The registry holding `subAB`. -/
def lpOne : LPoll := { subs := ⟨[("s1", subAB)], by decide⟩ }

/-- The registry holding `subAB` and `subC`. -/
def lpTwo : LPoll := { subs := ⟨[("s1", subAB), ("s2", subC)], by decide⟩ }

/-! ## Lemmas on Go maps -/

namespace GoMap

variable {α : Type}

theorem ext {m m' : GoMap α} (h : m.entries = m'.entries) : m = m' := by
  cases m; cases m'; cases h; rfl

theorem eraseKey_of_not_mem {k : String} {l : List (String × α)}
    (h : k ∉ l.map Prod.fst) : eraseKey k l = l := by
  unfold eraseKey
  rw [List.filter_eq_self]
  intro e he
  have : e.1 ≠ k := fun hk => h (List.mem_map.2 ⟨e, he, hk⟩)
  simpa using this

theorem mem_eraseKey {k : String} {l : List (String × α)} {e : String × α} :
    e ∈ eraseKey k l ↔ e ∈ l ∧ e.1 ≠ k := by
  simp [eraseKey]

theorem find?_key_eq_none {k : String} {l : List (String × α)} :
    l.find? (fun e => e.1 == k) = none ↔ k ∉ l.map Prod.fst := by
  simp [List.find?_eq_none]
  constructor
  · intro h v hv; exact h _ _ hv rfl
  · intro h a b hab hk; exact h b (hk ▸ hab)

theorem find?_key_of_mem {k : String} {v : α} :
    ∀ {l : List (String × α)}, (l.map Prod.fst).Nodup → (k, v) ∈ l →
      l.find? (fun e => e.1 == k) = some (k, v)
  | [], _, h => by simp at h
  | e :: l, hn, h => by
    rw [List.map_cons, List.nodup_cons] at hn
    rcases List.mem_cons.1 h with h | h
    · subst h; simp
    · have hne : e.1 ≠ k := fun hk => hn.1 (hk ▸ List.mem_map.2 ⟨(k, v), h, rfl⟩)
      rw [List.find?_cons_of_neg]
      · exact find?_key_of_mem hn.2 h
      · simpa using hne

theorem get?_eq_some_iff {m : GoMap α} {k : String} {v : α} :
    m.get? k = some v ↔ (k, v) ∈ m.entries := by
  constructor
  · intro h
    unfold get? at h
    rw [Option.map_eq_some'] at h
    obtain ⟨e, he, hv⟩ := h
    have hm := List.mem_of_find?_eq_some he
    have hk := List.find?_some he
    have hk' : e.1 = k := by simpa using hk
    rw [← hk', ← hv]
    exact hm
  · intro h
    unfold get?
    rw [find?_key_of_mem m.nodup h]
    rfl

theorem get?_eq_none_iff {m : GoMap α} {k : String} : m.get? k = none ↔ k ∉ m.keys := by
  unfold get? keys
  rw [Option.map_eq_none', find?_key_eq_none]

theorem mem_keys_iff {m : GoMap α} {k : String} : k ∈ m.keys ↔ ∃ v, (k, v) ∈ m.entries := by
  unfold keys
  rw [List.mem_map]
  constructor
  · rintro ⟨e, he, hk⟩; exact ⟨e.2, by rw [← hk]; exact he⟩
  · rintro ⟨v, hv⟩; exact ⟨(k, v), hv, rfl⟩

theorem entry_unique {m : GoMap α} {k : String} {v v' : α}
    (h : (k, v) ∈ m.entries) (h' : (k, v') ∈ m.entries) : v = v' := by
  have h1 := get?_eq_some_iff.2 h
  have h2 := get?_eq_some_iff.2 h'
  rw [h1] at h2
  exact Option.some.inj h2

theorem not_mem_keys_delete (m : GoMap α) (k : String) : k ∉ (m.delete k).keys :=
  not_mem_keys_eraseKey k m.entries

theorem get?_delete_self (m : GoMap α) (k : String) : (m.delete k).get? k = none :=
  get?_eq_none_iff.2 (not_mem_keys_delete m k)

theorem get?_delete_ne (m : GoMap α) {k k' : String} (h : k' ≠ k) :
    (m.delete k).get? k' = m.get? k' := by
  cases hg : m.get? k' with
  | none =>
    rw [get?_eq_none_iff] at hg ⊢
    intro hk
    exact hg ((eraseKey_sublist k m.entries).subset hk)
  | some v =>
    rw [get?_eq_some_iff] at hg ⊢
    exact mem_eraseKey.2 ⟨hg, h⟩

theorem delete_of_not_mem {m : GoMap α} {k : String} (h : k ∉ m.keys) : m.delete k = m :=
  ext (eraseKey_of_not_mem h)

theorem delete_delete (m : GoMap α) (k : String) : (m.delete k).delete k = m.delete k :=
  delete_of_not_mem (not_mem_keys_delete m k)

theorem get?_set_self (m : GoMap α) (k : String) (v : α) : (m.set k v).get? k = some v :=
  get?_eq_some_iff.2 (List.mem_append_right _ (List.mem_singleton.2 rfl))

theorem get?_set_ne (m : GoMap α) {k k' : String} (v : α) (h : k' ≠ k) :
    (m.set k v).get? k' = m.get? k' := by
  cases hg : m.get? k' with
  | none =>
    rw [get?_eq_none_iff] at hg ⊢
    intro hk
    unfold keys set at hk
    rw [List.map_append, List.mem_append] at hk
    rcases hk with hk | hk
    · exact hg ((eraseKey_sublist k m.entries).subset hk)
    · exact h (by simpa using hk)
  | some v' =>
    rw [get?_eq_some_iff] at hg ⊢
    exact List.mem_append_left _ (mem_eraseKey.2 ⟨hg, h⟩)

theorem mem_keys_set {m : GoMap α} {k k' : String} {v : α} :
    k' ∈ (m.set k v).keys ↔ k' = k ∨ k' ∈ m.keys := by
  by_cases h : k' = k
  · subst h
    have := get?_set_self m k' v
    constructor
    · intro _; exact Or.inl rfl
    · intro _
      by_contra hc
      rw [get?_eq_none_iff.2 hc] at this
      exact Option.noConfusion this
  · have := get?_set_ne m v h
    have e : k' ∈ (m.set k v).keys ↔ k' ∈ m.keys := by
      rw [← not_iff_not, ← get?_eq_none_iff, ← get?_eq_none_iff, this]
    rw [e]
    simp [h]

end GoMap

theorem foldl_append_singleton {α β : Type} (f : α → β) (l : List α) (init : List β) :
    l.foldl (fun res e => res ++ [f e]) init = init ++ l.map f := by
  induction l generalizing init with
  | nil => simp
  | cons a l ih => simp [ih]

example : (lpTwo.Get "s1" 3).2 = (some ⟨subAB, 3⟩, none) := by decide
example : (lpTwo.Get "s3" 3).2.1 = none := by decide
example : (lpTwo.Drop "s1").2 = [⟨subAB⟩] := by decide
example : (lpTwo.Shutdown).2 = [⟨subAB⟩, ⟨subC⟩] := by decide
example : (lpTwo.Shutdown).1.subs.entries = [] := by decide
example : (lpTwo.List).2 = ["s1", "s2"] := by decide
example : (lpTwo.Topics).2 = ["a", "b", "c"] := by decide
example : ((lpTwo.Publish 0 ["a", "b"]).2.map (fun o => (o.sub.id, o.topic)))
    = [("s1", "a"), ("s2", "a"), ("s1", "b"), ("s2", "b")] := by decide
example : ((lpTwo.Subscribe "s9" 4 ["x", "x"]).1.List).2 = ["s1", "s2", "s9"] := by decide

example : (lpTwo.DropRun "s1").2
    = [Event.lookup "s1", Event.goDrop subAB, Event.lock, Event.delete "s1", Event.unlock] := by
  decide
example : sections (lpTwo.DropRun "s1").2
    = [(Event.lookup "s1", none), (Event.goDrop subAB, none), (Event.lock, none),
       (Event.delete "s1", some 0), (Event.unlock, some 0)] := by
  decide
example : (lpTwo.ShutdownRun).2
    = [Event.lock, Event.range, Event.next "s1", Event.goDrop subAB, Event.delete "s1",
       Event.next "s2", Event.goDrop subC, Event.delete "s2", Event.unlock] := by
  decide
example : (lpOne.PublishRun ["a", "b"]).2
    = [Event.lock, Event.range, Event.next "s1", Event.goPublish subAB "a",
       Event.range, Event.next "s1", Event.goPublish subAB "b", Event.unlock] := by
  decide
example : balancedFrom false (lpTwo.ShutdownRun).2 = true := by decide

/-! ## Lemmas on the operations -/

theorem List_eq_keys (lp : LPoll) : (lp.List).2 = lp.subs.keys :=
  (foldl_append_singleton Prod.fst lp.subs.entries []).trans (List.nil_append _)

theorem Get_of_not_mem {lp : LPoll} {id : String} (h : id ∉ lp.subs.keys) (w : Duration) :
    lp.Get id w = (lp, none, some "incorrect subscription id") := by
  unfold LPoll.Get
  rw [GoMap.get?_eq_none_iff.2 h]

theorem Get_of_mem {lp : LPoll} {id : String} {sub : Sub} (h : (id, sub) ∈ lp.subs.entries)
    (w : Duration) : lp.Get id w = (lp, some ⟨sub, w⟩, none) := by
  unfold LPoll.Get
  rw [GoMap.get?_eq_some_iff.2 h]

theorem shutdown_loop (l : List (String × Sub)) :
    ∀ (lp : LPoll) (calls : List DropCall), lp.subs.entries = l →
      (l.foldl LPoll.shutdownStep (lp, calls)).1.subs.entries = [] ∧
      (l.foldl LPoll.shutdownStep (lp, calls)).2 = calls ++ l.map (fun e => ⟨e.2⟩) := by
  induction l with
  | nil => intro lp calls h; simp [h]
  | cons e l ih =>
    intro lp calls h
    have hmem : (e.1, e.2) ∈ lp.subs.entries := by rw [h]; exact List.mem_cons_self _ _
    have hnd := lp.subs.nodup
    rw [h, List.map_cons, List.nodup_cons] at hnd
    have hstep : LPoll.shutdownStep (lp, calls) e
        = ({ subs := lp.subs.delete e.1 }, calls ++ [⟨e.2⟩]) := by
      unfold LPoll.shutdownStep
      simp only [GoMap.get?_eq_some_iff.2 hmem]
    have hent : (lp.subs.delete e.1).entries = l := by
      show GoMap.eraseKey e.1 lp.subs.entries = l
      rw [h]
      unfold GoMap.eraseKey
      rw [List.filter_cons_of_neg (by simp)]
      exact GoMap.eraseKey_of_not_mem hnd.1
    rw [List.foldl_cons, hstep]
    obtain ⟨h1, h2⟩ := ih { subs := lp.subs.delete e.1 } (calls ++ [⟨e.2⟩]) hent
    exact ⟨h1, by rw [h2]; simp⟩

theorem publish_loop (lp : LPoll) (data : δ) (topics : List String) :
    ∀ init : List (Offer δ),
      topics.foldl (fun spawned topic =>
        lp.subs.entries.foldl (fun spawned e => spawned ++ [⟨e.2, data, topic⟩]) spawned) init
      = init ++ topics.flatMap (fun topic => lp.subs.values.map (fun sub => ⟨sub, data, topic⟩)) := by
  induction topics with
  | nil => intro init; simp
  | cons topic topics ih =>
    intro init
    rw [List.foldl_cons,
      foldl_append_singleton (fun e : String × Sub => (⟨e.2, data, topic⟩ : Offer δ)), ih,
      List.flatMap_cons, List.append_assoc]
    simp [GoMap.values, List.map_map, Function.comp_def]

theorem Publish_calls (lp : LPoll) (data : δ) (topics : List String) :
    (lp.Publish data topics).2
      = topics.flatMap (fun topic => lp.subs.values.map (fun sub => ⟨sub, data, topic⟩)) :=
  (publish_loop lp data topics []).trans (List.nil_append _)

theorem length_flatMap_map {α β γ : Type} (f : α → β → γ) (l : List β) (ts : List α) :
    (ts.flatMap (fun t => l.map (f t))).length = ts.length * l.length := by
  induction ts with
  | nil => simp
  | cons t ts ih => rw [List.flatMap_cons, List.length_append, ih, List.length_map,
      List.length_cons, Nat.succ_mul, Nat.add_comm]

theorem Drop_fst (lp : LPoll) (id : String) : (lp.Drop id).1 = lp.onExpire id := by
  unfold LPoll.Drop LPoll.onExpire
  cases h : lp.subs.get? id with
  | some sub => rfl
  | none =>
    show lp = { subs := lp.subs.delete id }
    rw [GoMap.delete_of_not_mem (GoMap.get?_eq_none_iff.1 h)]

theorem onExpire_onExpire (lp : LPoll) (id : String) :
    (lp.onExpire id).onExpire id = lp.onExpire id := by
  unfold LPoll.onExpire
  rw [GoMap.delete_delete]

theorem mem_keys_foldl_set (l : List String) (t : String) :
    ∀ m : GoMap Bool, t ∈ (l.foldl (fun m t => m.set t true) m).keys ↔ t ∈ m.keys ∨ t ∈ l := by
  induction l with
  | nil => intro m; simp
  | cons a l ih =>
    intro m
    rw [List.foldl_cons, ih, GoMap.mem_keys_set, List.mem_cons]
    tauto

theorem mem_keys_topic_loop (es : List (String × Sub)) (t : String) :
    ∀ m : GoMap Bool,
      t ∈ (es.foldl (fun topics e =>
        e.2.topics.foldl (fun topics topic => topics.set topic true) topics) m).keys
      ↔ t ∈ m.keys ∨ ∃ e ∈ es, t ∈ e.2.topics := by
  induction es with
  | nil => intro m; simp
  | cons e es ih =>
    intro m
    rw [List.foldl_cons, ih, mem_keys_foldl_set]
    simp only [List.mem_cons, exists_eq_or_imp, or_assoc]

theorem Topics_eq_keys (lp : LPoll) : (lp.Topics).2 = lp.topicSet.keys :=
  (foldl_append_singleton Prod.fst lp.topicSet.entries []).trans (List.nil_append _)

theorem KeyedById_values_nodup {lp : LPoll} (hk : lp.KeyedById) : lp.subs.values.Nodup := by
  have h : lp.subs.entries.map Prod.fst = lp.subs.values.map Sub.id := by
    unfold GoMap.values
    rw [List.map_map]
    exact List.map_congr_left hk
  have hn := lp.subs.nodup
  rw [h] at hn
  exact hn.of_map

theorem KeyedById_New : New.KeyedById := by
  intro e he
  simp [New, GoMap.empty] at he

theorem KeyedById_onExpire {lp : LPoll} (hk : lp.KeyedById) (id : String) :
    (lp.onExpire id).KeyedById :=
  fun e he => hk e (GoMap.mem_eraseKey.1 he).1

theorem KeyedById_Subscribe {lp : LPoll} (hk : lp.KeyedById) (fresh : String)
    (timeout : Duration) (topics : List String) :
    (lp.Subscribe fresh timeout topics).1.KeyedById := by
  intro e he
  rcases List.mem_append.1 he with h | h
  · exact hk e (GoMap.mem_eraseKey.1 h).1
  · rw [List.mem_singleton.1 h]

theorem matching_one_topic (sub : Sub) (values : List Sub) (h : values.count sub = 1)
    (data : δ) (t : String) :
    matchingOffers sub (values.map (fun s => (⟨s, data, t⟩ : Offer δ)))
      = if sub.accepts t then 1 else 0 := by
  unfold matchingOffers
  rw [List.countP_map]
  by_cases ht : sub.accepts t = true
  · rw [if_pos ht, ← h, List.count_eq_countP]
    congr 1
    funext s
    by_cases hs : s = sub <;> simp [hs, ht]
  · rw [if_neg ht]
    simp [ht]

theorem matching_all_topics (sub : Sub) (values : List Sub) (h : values.count sub = 1)
    (data : δ) (topics : List String) :
    matchingOffers sub
        (topics.flatMap (fun topic => values.map (fun s => (⟨s, data, topic⟩ : Offer δ))))
      = topics.countP sub.accepts := by
  induction topics with
  | nil => rfl
  | cons t topics ih =>
    rw [List.flatMap_cons, List.countP_cons, ← ih]
    unfold matchingOffers
    rw [List.countP_append, Nat.add_comm]
    congr 1
    exact matching_one_topic sub values h data t

theorem KeyedById_Drop {lp : LPoll} (hk : lp.KeyedById) (id : String) :
    (lp.Drop id).1.KeyedById := by
  rw [Drop_fst]
  exact KeyedById_onExpire hk id

theorem KeyedById_Shutdown (lp : LPoll) : (lp.Shutdown).1.KeyedById := by
  intro e he
  rw [LPoll.Shutdown, (shutdown_loop lp.subs.entries lp [] rfl).1] at he
  exact absurd he (List.not_mem_nil e)

theorem remove_eq_onExpire (lp : LPoll) (id : String) (r : Removal) :
    lp.remove id r = lp.onExpire id := by
  cases r
  · exact Drop_fst lp id
  · rfl

theorem removeAll_cons (lp : LPoll) (id : String) (r : Removal) (rs : List Removal) :
    lp.removeAll id (r :: rs) = lp.onExpire id := by
  unfold LPoll.removeAll
  rw [List.foldl_cons, remove_eq_onExpire]
  induction rs with
  | nil => rfl
  | cons r rs ih => rw [List.foldl_cons, remove_eq_onExpire, onExpire_onExpire, ih]

theorem Publish_calls_mem (lp : LPoll) (data : δ) (topics : List String) :
    ∀ c ∈ (lp.Publish data topics).2,
      c.sub ∈ lp.subs.values ∧ c.topic ∈ topics ∧ c.data = data := by
  rw [Publish_calls]
  intro c hc
  obtain ⟨topic, ht, hc⟩ := List.mem_flatMap.1 hc
  obtain ⟨sub, hs, rfl⟩ := List.mem_map.1 hc
  exact ⟨hs, ht, rfl⟩

/-! ## Lemmas on traces -/

theorem foldl_append_flat {α β : Type} (f : α → List β) (l : List α) :
    ∀ init : List β, l.foldl (fun log e => log ++ f e) init = init ++ l.flatMap f := by
  induction l with
  | nil => intro init; simp
  | cons a l ih => intro init; rw [List.foldl_cons, ih, List.flatMap_cons, List.append_assoc]

theorem stamp_plain_append (cur : Option Nat) (n : Nat) (rest : Trace) :
    ∀ tr : Trace, Plain tr →
      stamp cur n (tr ++ rest) = tr.map (fun e => (e, cur)) ++ stamp cur n rest := by
  intro tr
  induction tr with
  | nil => intro _; rfl
  | cons e tr ih =>
    intro h
    have he := h e (List.mem_cons_self _ _)
    have ht : Plain tr := fun x hx => h x (List.mem_cons_of_mem _ hx)
    rw [List.cons_append, stamp, if_neg he.1, if_neg he.2, ih ht]
    rfl

theorem sections_locked (body : Trace) (h : Plain body) :
    sections (Event.lock :: (body ++ [Event.unlock]))
      = (Event.lock, none) :: (body.map (fun e => (e, some 0)) ++ [(Event.unlock, some 0)]) := by
  unfold sections
  rw [stamp, if_pos rfl, stamp_plain_append _ _ _ body h]
  rfl

theorem Guarded_locked (body : Trace) (h : Plain body) :
    Guarded (Event.lock :: (body ++ [Event.unlock])) := by
  intro p hp ha
  rw [sections_locked body h] at hp
  rcases List.mem_cons.1 hp with hp | hp
  · rw [hp] at ha; exact absurd ha (by decide)
  · rcases List.mem_append.1 hp with hp | hp
    · obtain ⟨e, _, rfl⟩ := List.mem_map.1 hp
      rfl
    · rw [List.mem_singleton.1 hp]; rfl

theorem balancedFrom_plain_append (held : Bool) (rest : Trace) :
    ∀ tr : Trace, Plain tr → balancedFrom held (tr ++ rest) = balancedFrom held rest := by
  intro tr
  induction tr with
  | nil => intro _; rfl
  | cons e tr ih =>
    intro h
    have he := h e (List.mem_cons_self _ _)
    have ht : Plain tr := fun x hx => h x (List.mem_cons_of_mem _ hx)
    rw [List.cons_append, balancedFrom, if_neg he.1, if_neg he.2, ih ht]

theorem balanced_locked (body : Trace) (h : Plain body) :
    balancedFrom false (Event.lock :: (body ++ [Event.unlock])) = true := by
  rw [balancedFrom, if_pos rfl, balancedFrom_plain_append _ _ body h]
  rfl

theorem Plain_flatMap {α : Type} (f : α → Trace) (l : List α) (h : ∀ a ∈ l, Plain (f a)) :
    Plain (l.flatMap f) := by
  intro e he
  obtain ⟨a, ha, hea⟩ := List.mem_flatMap.1 he
  exact h a ha e hea

theorem Plain_cons {e : Event} {tr : Trace} (he : e ≠ Event.lock ∧ e ≠ Event.unlock)
    (h : Plain tr) : Plain (e :: tr) := by
  intro x hx
  rcases List.mem_cons.1 hx with hx | hx
  · rw [hx]; exact he
  · exact h x hx

/-- The statements of `Publish` between its lock and its unlock. -/
theorem PublishRun_log (lp : LPoll) (topics : List String) :
    (lp.PublishRun topics).2 = Event.lock :: (topics.flatMap (fun topic =>
      Event.range :: lp.subs.entries.flatMap (fun e =>
        [Event.next e.1, Event.goPublish e.2 topic])) ++ [Event.unlock]) := by
  have h : ∀ (log : Trace) (topic : String),
      lp.subs.entries.foldl (fun log e => log ++ [Event.next e.1, Event.goPublish e.2 topic])
        (log ++ [Event.range])
      = log ++ (Event.range :: lp.subs.entries.flatMap (fun e =>
        [Event.next e.1, Event.goPublish e.2 topic])) := by
    intro log topic
    rw [foldl_append_flat (fun e : String × Sub => [Event.next e.1, Event.goPublish e.2 topic])]
    simp
  unfold LPoll.PublishRun
  simp only [h]
  rw [foldl_append_flat (fun topic => Event.range :: lp.subs.entries.flatMap (fun e =>
        [Event.next e.1, Event.goPublish e.2 topic]))]
  rfl

theorem shutdownRun_loop (l : List (String × Sub)) :
    ∀ (lp : LPoll) (log : Trace), lp.subs.entries = l →
      (l.foldl LPoll.shutdownStepRun (lp, log)).1.subs.entries = [] ∧
      (l.foldl LPoll.shutdownStepRun (lp, log)).2
        = log ++ l.flatMap (fun e => [Event.next e.1, Event.goDrop e.2, Event.delete e.1]) := by
  induction l with
  | nil => intro lp log h; simp [h]
  | cons e l ih =>
    intro lp log h
    have hmem : (e.1, e.2) ∈ lp.subs.entries := by rw [h]; exact List.mem_cons_self _ _
    have hnd := lp.subs.nodup
    rw [h, List.map_cons, List.nodup_cons] at hnd
    have hstep : LPoll.shutdownStepRun (lp, log) e
        = ({ subs := lp.subs.delete e.1 },
            log ++ [Event.next e.1, Event.goDrop e.2, Event.delete e.1]) := by
      unfold LPoll.shutdownStepRun
      simp only [GoMap.get?_eq_some_iff.2 hmem]
    have hent : (lp.subs.delete e.1).entries = l := by
      show GoMap.eraseKey e.1 lp.subs.entries = l
      rw [h]
      unfold GoMap.eraseKey
      rw [List.filter_cons_of_neg (by simp)]
      exact GoMap.eraseKey_of_not_mem hnd.1
    rw [List.foldl_cons, hstep]
    obtain ⟨h1, h2⟩ := ih { subs := lp.subs.delete e.1 } _ hent
    exact ⟨h1, by rw [h2, List.flatMap_cons, List.append_assoc]⟩

/-- The statements of `Shutdown` between its lock and its unlock. -/
theorem ShutdownRun_log (lp : LPoll) :
    (lp.ShutdownRun).2 = Event.lock :: ((Event.range :: lp.subs.entries.flatMap (fun e =>
      [Event.next e.1, Event.goDrop e.2, Event.delete e.1])) ++ [Event.unlock]) := by
  unfold LPoll.ShutdownRun
  rw [(shutdownRun_loop lp.subs.entries lp _ rfl).2]
  rfl

/-- The statements of `List` and of `Topics` between lock and unlock. -/
theorem ListRun_log (lp : LPoll) :
    (lp.ListRun).2 = Event.lock :: ((Event.range :: lp.subs.entries.map (fun e =>
      Event.next e.1)) ++ [Event.unlock]) := by
  unfold LPoll.ListRun
  rw [foldl_append_singleton (fun e : String × Sub => Event.next e.1)]
  rfl

theorem TopicsRun_log (lp : LPoll) : (lp.TopicsRun).2 = (lp.ListRun).2 := rfl

/-! ## The traced operations are the operations -/

theorem dropsOf_shutdown_body (l : List (String × Sub)) :
    dropsOf (l.flatMap (fun e => [Event.next e.1, Event.goDrop e.2, Event.delete e.1]))
      = l.map (fun e => ⟨e.2⟩) := by
  induction l with
  | nil => rfl
  | cons e l ih =>
    unfold dropsOf at ih ⊢
    rw [List.flatMap_cons, List.filterMap_append, ih]
    rfl

theorem offersOf_publish_body (data : δ) (topic : String) (l : List (String × Sub)) :
    offersOf data (l.flatMap (fun e => [Event.next e.1, Event.goPublish e.2 topic]))
      = l.map (fun e => ⟨e.2, data, topic⟩) := by
  induction l with
  | nil => rfl
  | cons e l ih =>
    unfold offersOf at ih ⊢
    rw [List.flatMap_cons, List.filterMap_append, ih]
    rfl

theorem DropRun_refines (lp : LPoll) (id : String) :
    (lp.DropRun id).1 = (lp.Drop id).1 ∧ dropsOf (lp.DropRun id).2 = (lp.Drop id).2 := by
  unfold LPoll.DropRun LPoll.Drop
  cases lp.subs.get? id <;> exact ⟨rfl, rfl⟩

theorem GetRun_refines (lp : LPoll) (id : String) (w : Duration) :
    (lp.GetRun id w).1 = (lp.Get id w).1 ∧
    ∀ sub, Event.callGet sub w ∈ (lp.GetRun id w).2 ↔ (lp.Get id w).2.1 = some ⟨sub, w⟩ := by
  unfold LPoll.GetRun LPoll.Get
  cases lp.subs.get? id with
  | none => exact ⟨rfl, fun sub => by simp⟩
  | some s =>
    refine ⟨rfl, fun sub => ?_⟩
    simp only [List.mem_cons, List.mem_singleton, Event.callGet.injEq, Option.some.injEq,
      GetCall.mk.injEq, List.not_mem_nil, or_false]
    constructor
    · rintro (h | h)
      · exact Event.noConfusion h
      · exact ⟨h.1.symm, trivial⟩
    · rintro ⟨h, _⟩
      exact Or.inr ⟨h.symm, trivial⟩

theorem ShutdownRun_refines (lp : LPoll) :
    (lp.ShutdownRun).1 = (lp.Shutdown).1 ∧ dropsOf (lp.ShutdownRun).2 = (lp.Shutdown).2 := by
  constructor
  · have h1 : (lp.ShutdownRun).1.subs.entries = [] :=
      (shutdownRun_loop lp.subs.entries lp _ rfl).1
    have h2 : (lp.Shutdown).1.subs.entries = [] := (shutdown_loop lp.subs.entries lp [] rfl).1
    have h3 : (lp.ShutdownRun).1.subs = (lp.Shutdown).1.subs := GoMap.ext (h1.trans h2.symm)
    cases hr : (lp.ShutdownRun).1
    cases hs : (lp.Shutdown).1
    rw [hr, hs] at h3
    exact congrArg LPoll.mk h3
  · rw [ShutdownRun_log]
    have h2 : (lp.Shutdown).2 = lp.subs.entries.map (fun e => ⟨e.2⟩) := by
      unfold LPoll.Shutdown
      rw [(shutdown_loop lp.subs.entries lp [] rfl).2, List.nil_append]
    rw [h2, ← dropsOf_shutdown_body]
    unfold dropsOf
    rw [← List.cons_append, List.filterMap_append]
    simp [List.filterMap_cons]

theorem PublishRun_refines (lp : LPoll) (data : δ) (topics : List String) :
    (lp.PublishRun topics).1 = (lp.Publish data topics).1 ∧
    offersOf data (lp.PublishRun topics).2 = (lp.Publish data topics).2 := by
  refine ⟨rfl, ?_⟩
  rw [PublishRun_log, Publish_calls]
  have hb : ∀ ts : List String,
      offersOf data (ts.flatMap (fun topic => Event.range :: lp.subs.entries.flatMap (fun e =>
        [Event.next e.1, Event.goPublish e.2 topic])))
      = ts.flatMap (fun topic => lp.subs.values.map (fun sub => ⟨sub, data, topic⟩)) := by
    intro ts
    induction ts with
    | nil => rfl
    | cons t ts ih =>
      have ht := offersOf_publish_body data t lp.subs.entries
      unfold offersOf at ih ht ⊢
      rw [List.flatMap_cons, List.flatMap_cons, List.filterMap_append, ih,
        List.filterMap_cons, ht]
      simp [GoMap.values, List.map_map, Function.comp_def]
  rw [← hb]
  unfold offersOf
  rw [← List.cons_append, List.filterMap_append]
  simp [List.filterMap_cons]

theorem Plain_shutdown_body (lp : LPoll) :
    Plain (Event.range :: lp.subs.entries.flatMap (fun e =>
      [Event.next e.1, Event.goDrop e.2, Event.delete e.1])) := by
  refine Plain_cons (by decide) (Plain_flatMap _ _ fun e _ x hx => ?_)
  simp only [List.mem_cons, List.mem_singleton, List.not_mem_nil, or_false] at hx
  rcases hx with rfl | rfl | rfl <;> exact ⟨Event.noConfusion, Event.noConfusion⟩

theorem Plain_publish_body (lp : LPoll) (topics : List String) :
    Plain (topics.flatMap (fun topic => Event.range :: lp.subs.entries.flatMap (fun e =>
      [Event.next e.1, Event.goPublish e.2 topic]))) := by
  refine Plain_flatMap _ _ fun topic _ => Plain_cons (by decide) (Plain_flatMap _ _ fun e _ x hx => ?_)
  simp only [List.mem_cons, List.mem_singleton, List.not_mem_nil, or_false] at hx
  rcases hx with rfl | rfl <;> exact ⟨Event.noConfusion, Event.noConfusion⟩

theorem Plain_list_body (lp : LPoll) :
    Plain (Event.range :: lp.subs.entries.map (fun e => Event.next e.1)) := by
  refine Plain_cons (by decide) fun x hx => ?_
  obtain ⟨e, _, rfl⟩ := List.mem_map.1 hx
  exact ⟨Event.noConfusion, Event.noConfusion⟩

theorem Reachable_KeyedById {lp : LPoll} (h : Reachable lp) : lp.KeyedById := by
  induction h with
  | new => exact KeyedById_New
  | subscribe lp fresh timeout topics _ ih => exact KeyedById_Subscribe ih fresh timeout topics
  | drop lp id _ ih => exact KeyedById_Drop ih id
  | expire lp id _ ih => exact KeyedById_onExpire ih id
  | shutdown lp _ => exact KeyedById_Shutdown lp

/-! ## The claims -/

/-- C1: `Get(id, polltime)` returns a non-nil error exactly when `id` is not a key of the
map `subs`; when `id` is a key, exactly one subscription is stored under it, and `Get` returns
a nil error with the channel of `Get(polltime)` called on that subscription. -/
theorem Get_error_iff_not_registered (lp : LPoll) (id : String) (polltime : Duration) :
    ((lp.Get id polltime).2.2 ≠ none ↔ id ∉ lp.subs.keys) ∧
    (id ∈ lp.subs.keys → ∃ sub, (id, sub) ∈ lp.subs.entries ∧
      (∀ other, (id, other) ∈ lp.subs.entries → other = sub) ∧
      (lp.Get id polltime).2 = (some ⟨sub, polltime⟩, none)) := by
  constructor
  · by_cases h : id ∈ lp.subs.keys
    · obtain ⟨sub, hs⟩ := GoMap.mem_keys_iff.1 h
      rw [Get_of_mem hs]
      simp [h]
    · rw [Get_of_not_mem h]
      simp [h]
  · intro h
    obtain ⟨sub, hs⟩ := GoMap.mem_keys_iff.1 h
    exact ⟨sub, hs, fun other ho => GoMap.entry_unique ho hs, by rw [Get_of_mem hs]⟩

/-- C3: when `id` is a key of the map, `Drop(id)` dispatches one `Drop` call, on the
subscription stored under `id`, and no other; it removes `id` from the map, and a `Get(id, w)`
made right afterwards returns a nil channel and an error, for every `w`. -/
theorem Drop_registered (lp : LPoll) (id : String) (h : id ∈ lp.subs.keys) :
    ∃ sub, (id, sub) ∈ lp.subs.entries ∧
      (lp.Drop id).2 = [⟨sub⟩] ∧
      id ∉ (lp.Drop id).1.subs.keys ∧
      ∀ w, (((lp.Drop id).1.Get id w).2.1 = none ∧ ((lp.Drop id).1.Get id w).2.2 ≠ none) := by
  obtain ⟨sub, hs⟩ := GoMap.mem_keys_iff.1 h
  have hd : lp.Drop id = ({ subs := lp.subs.delete id }, [⟨sub⟩]) := by
    unfold LPoll.Drop
    rw [GoMap.get?_eq_some_iff.2 hs]
  have hn : id ∉ (lp.Drop id).1.subs.keys := by
    rw [hd]; exact GoMap.not_mem_keys_delete lp.subs id
  refine ⟨sub, hs, by rw [hd], hn, fun w => ?_⟩
  rw [Get_of_not_mem hn]
  simp

/-- Witness of `Drop_registered`: dropping `s1` from the registry of `subAB` and `subC`. -/
theorem Drop_registered_witness :
    "s1" ∈ lpTwo.subs.keys ∧
    ∃ sub, ("s1", sub) ∈ lpTwo.subs.entries ∧
      (lpTwo.Drop "s1").2 = [⟨sub⟩] ∧
      "s1" ∉ (lpTwo.Drop "s1").1.subs.keys ∧
      ∀ w, (((lpTwo.Drop "s1").1.Get "s1" w).2.1 = none ∧
        ((lpTwo.Drop "s1").1.Get "s1" w).2.2 ≠ none) :=
  ⟨by decide, Drop_registered lpTwo "s1" (by decide)⟩

/-- C4: `Shutdown()` dispatches one `Drop` call for each entry of the map, on the subscription
of that entry, and leaves the map empty: afterwards `List()` is empty and `Get(id, w)` returns
a nil channel and an error for every `id`, so for every id registered before the call. -/
theorem Shutdown_closes_and_removes_all (lp : LPoll) :
    (lp.Shutdown).2.Perm (lp.subs.values.map DropCall.mk) ∧
    (lp.Shutdown).2.length = lp.subs.len ∧
    (lp.Shutdown).1.subs.entries = [] ∧
    ((lp.Shutdown).1.List).2 = [] ∧
    ∀ id w, (((lp.Shutdown).1.Get id w).2.1 = none ∧ ((lp.Shutdown).1.Get id w).2.2 ≠ none) := by
  obtain ⟨h1, h2⟩ := shutdown_loop lp.subs.entries lp [] rfl
  have hk : (lp.Shutdown).1.subs.keys = [] := by
    unfold GoMap.keys; unfold LPoll.Shutdown; rw [h1]; rfl
  have hcalls : (lp.Shutdown).2 = lp.subs.values.map DropCall.mk := by
    unfold LPoll.Shutdown GoMap.values
    rw [h2, List.nil_append, List.map_map]
    rfl
  refine ⟨by rw [hcalls], ?_, h1, ?_, fun id w => ?_⟩
  · rw [hcalls]; simp [GoMap.values, GoMap.len]
  · rw [List_eq_keys, hk]
  · rw [Get_of_not_mem (by rw [hk]; exact List.not_mem_nil id)]
    simp

/-- C2: `Publish(data, topics...)` dispatches one `sub.Publish(data, topic)` for each pair of
a position of `topics` and an entry of the map, and nothing else: the dispatched calls are a
rearrangement of the calls listed pair by pair, their number is `len(topics)` times the number
of registered subscriptions, every registered subscription is offered every given topic, and
every call goes to a registered subscription, with a given topic and the payload given to
`Publish`. -/
theorem Publish_dispatches_each_pair_once (lp : LPoll) (data : δ) (topics : List String) :
    (lp.Publish data topics).2.Perm
      (topics.flatMap (fun topic => lp.subs.values.map (fun sub => ⟨sub, data, topic⟩))) ∧
    (lp.Publish data topics).2.length = topics.length * lp.subs.len ∧
    (∀ sub ∈ lp.subs.values, ∀ topic ∈ topics,
      (⟨sub, data, topic⟩ : Offer δ) ∈ (lp.Publish data topics).2) ∧
    (∀ c ∈ (lp.Publish data topics).2,
      c.sub ∈ lp.subs.values ∧ c.topic ∈ topics ∧ c.data = data) := by
  rw [Publish_calls]
  refine ⟨List.Perm.refl _, ?_, ?_, ?_⟩
  · rw [length_flatMap_map (fun topic sub => (⟨sub, data, topic⟩ : Offer δ))]
    simp [GoMap.values, GoMap.len]
  · intro sub hs topic ht
    exact List.mem_flatMap.2 ⟨topic, ht, List.mem_map.2 ⟨sub, hs, rfl⟩⟩
  · intro c hc
    obtain ⟨topic, ht, hc⟩ := List.mem_flatMap.1 hc
    obtain ⟨sub, hs, rfl⟩ := List.mem_map.1 hc
    exact ⟨hs, ht, rfl⟩

/-- C5: `Subscribe(timeout, topics...)` returns the id of the subscription it has created
with `NewSub(timeout, callback, topics...)`; afterwards that id is a key of the map, bound to
the new subscription and to no other, `List()` contains it, and `Get` on it returns a nil
error with the channel of `Get` called on the new subscription. -/
theorem Subscribe_registers_new_sub (lp : LPoll) (fresh : String) (timeout : Duration)
    (topics : List String) :
    (lp.Subscribe fresh timeout topics).2
      = (NewSub fresh timeout Callback.deleteFromSubs topics).id ∧
    (lp.Subscribe fresh timeout topics).2 ∈ (lp.Subscribe fresh timeout topics).1.subs.keys ∧
    (∀ sub, ((lp.Subscribe fresh timeout topics).2, sub)
        ∈ (lp.Subscribe fresh timeout topics).1.subs.entries
      ↔ sub = NewSub fresh timeout Callback.deleteFromSubs topics) ∧
    (lp.Subscribe fresh timeout topics).2 ∈ ((lp.Subscribe fresh timeout topics).1.List).2 ∧
    ∀ w, ((lp.Subscribe fresh timeout topics).1.Get (lp.Subscribe fresh timeout topics).2 w).2
      = (some ⟨NewSub fresh timeout Callback.deleteFromSubs topics, w⟩, none) := by
  have hg : (lp.Subscribe fresh timeout topics).1.subs.get? (lp.Subscribe fresh timeout topics).2
      = some (NewSub fresh timeout Callback.deleteFromSubs topics) :=
    GoMap.get?_set_self lp.subs _ _
  have hm := GoMap.get?_eq_some_iff.1 hg
  have hk := GoMap.mem_keys_iff.2 ⟨_, hm⟩
  refine ⟨rfl, hk, fun sub => ⟨fun h => GoMap.entry_unique h hm, fun h => h ▸ hm⟩, ?_, fun w => ?_⟩
  · rw [List_eq_keys]; exact hk
  · rw [Get_of_mem hm]

/-- C6: the subscription registered by `Subscribe` holds the function literal of `Subscribe`
as its expiry callback, and when that callback is called with `id`, in any state of the
registry, `id` is removed from the map: afterwards `List()` does not contain `id` and
`Get(id, w)` returns a nil channel and an error for every `w`. -/
theorem expiry_callback_removes_id (lp : LPoll) (id : String) :
    (∀ (lp0 : LPoll) (fresh : String) (timeout : Duration) (topics : List String) (sub : Sub),
      (lp0.Subscribe fresh timeout topics).1.subs.get? (lp0.Subscribe fresh timeout topics).2
        = some sub → lp.runCallback sub.onExpire id = lp.onExpire id) ∧
    id ∉ (lp.onExpire id).subs.keys ∧
    id ∉ ((lp.onExpire id).List).2 ∧
    ∀ w, (((lp.onExpire id).Get id w).2.1 = none ∧ ((lp.onExpire id).Get id w).2.2 ≠ none) := by
  have hn : id ∉ (lp.onExpire id).subs.keys := GoMap.not_mem_keys_delete lp.subs id
  refine ⟨?_, hn, by rw [List_eq_keys]; exact hn, fun w => by rw [Get_of_not_mem hn]; simp⟩
  intro lp0 fresh timeout topics sub h
  cases hc : sub.onExpire
  rfl

/-- C9: `List()` returns the ids registered in the map: a string occurs in the result exactly
when it is a key of the map, each key occurs in it once, and the length of the result is the
number of registered subscriptions. -/
theorem List_returns_registered_ids (lp : LPoll) :
    (∀ id, id ∈ (lp.List).2 ↔ id ∈ lp.subs.keys) ∧
    (∀ id, id ∈ (lp.List).2 ↔ ∃ sub, lp.subs.get? id = some sub) ∧
    (∀ id ∈ lp.subs.keys, (lp.List).2.count id = 1) ∧
    (lp.List).2.length = lp.subs.len := by
  rw [List_eq_keys]
  refine ⟨fun id => Iff.rfl, fun id => ?_, fun id h => ?_, ?_⟩
  · rw [GoMap.mem_keys_iff]
    exact exists_congr fun sub => GoMap.get?_eq_some_iff.symm
  · exact List.count_eq_one_of_mem lp.subs.nodup h
  · simp [GoMap.keys, GoMap.len]

/-- C8: `Topics()` returns the topics claimed by a registered subscription: a string occurs
in the result exactly when some subscription of the map has it among its topics, no string
occurs in the result twice, and the result is empty when no subscription is registered. -/
theorem Topics_returns_claimed_topics (lp : LPoll) :
    (∀ t, t ∈ (lp.Topics).2 ↔ ∃ sub ∈ lp.subs.values, t ∈ sub.topics) ∧
    (lp.Topics).2.Nodup ∧
    (lp.subs.len = 0 → (lp.Topics).2 = []) := by
  have hmem : ∀ t, t ∈ (lp.Topics).2 ↔ ∃ sub ∈ lp.subs.values, t ∈ sub.topics := by
    intro t
    rw [Topics_eq_keys]
    unfold LPoll.topicSet
    rw [mem_keys_topic_loop]
    simp only [GoMap.empty, GoMap.keys, GoMap.values, List.map_nil, List.not_mem_nil, false_or,
      List.mem_map]
    constructor
    · rintro ⟨e, he, ht⟩; exact ⟨e.2, ⟨e, he, rfl⟩, ht⟩
    · rintro ⟨sub, ⟨e, he, rfl⟩, ht⟩; exact ⟨e, he, ht⟩
  refine ⟨hmem, ?_, fun h => ?_⟩
  · rw [Topics_eq_keys]
    exact lp.topicSet.nodup
  · have he : lp.subs.entries = [] := List.length_eq_zero.1 h
    apply List.eq_nil_iff_forall_not_mem.2
    intro t ht
    obtain ⟨sub, hs, _⟩ := (hmem t).1 ht
    simp [GoMap.values, he] at hs

/-- C7, as stated, fails: the registry holds `subAB`, whose topics are `a` and `b`, under
its id; `Publish` with the topics `a` and `b` dispatches two offers to it that carry one of
its topics, not one. -/
theorem Publish_buffers_once_counterexample :
    lpOne.subs.get? "s1" = some subAB ∧
    (∃ t ∈ ["a", "b"], t ∈ subAB.topics) ∧
    matchingOffers subAB (lpOne.Publish () ["a", "b"]).2 = 2 ∧
    ¬ matchingOffers subAB (lpOne.Publish () ["a", "b"]).2 = 1 := by
  decide

/-- C7, amended: in a registry whose subscriptions are stored under their own ids, the number
of offers that `Publish` dispatches to a registered subscription with one of its topics is the
number of positions of the topic list that hold one of its topics; it is at least one when
some given topic is one of its topics, and one when exactly one position holds such a topic. -/
theorem Publish_buffers_once_per_matching_position (lp : LPoll) (hk : lp.KeyedById) (data : δ)
    (topics : List String) (id : String) (sub : Sub) (h : (id, sub) ∈ lp.subs.entries) :
    matchingOffers sub (lp.Publish data topics).2 = topics.countP sub.accepts ∧
    ((∃ t ∈ topics, t ∈ sub.topics) → 1 ≤ matchingOffers sub (lp.Publish data topics).2) ∧
    (topics.countP sub.accepts = 1 → matchingOffers sub (lp.Publish data topics).2 = 1) := by
  have hv : sub ∈ lp.subs.values := List.mem_map.2 ⟨(id, sub), h, rfl⟩
  have hc : lp.subs.values.count sub = 1 := List.count_eq_one_of_mem (KeyedById_values_nodup hk) hv
  have he : matchingOffers sub (lp.Publish data topics).2 = topics.countP sub.accepts := by
    rw [Publish_calls]
    exact matching_all_topics sub lp.subs.values hc data topics
  refine ⟨he, ?_, fun h1 => he.trans h1⟩
  rintro ⟨t, ht, hts⟩
  rw [he]
  exact List.countP_pos_iff.2 ⟨t, ht, by simpa [Sub.accepts] using hts⟩

/-- Witness of `Publish_buffers_once_per_matching_position`: the registry of `subAB` and
`subC`, and a payload published to the topics `a` and `c`. -/
theorem Publish_buffers_once_per_matching_position_witness :
    lpTwo.KeyedById ∧ ("s1", subAB) ∈ lpTwo.subs.entries ∧
    (matchingOffers subAB (lpTwo.Publish () ["a", "c"]).2 = ["a", "c"].countP subAB.accepts ∧
    ((∃ t ∈ ["a", "c"], t ∈ subAB.topics) →
      1 ≤ matchingOffers subAB (lpTwo.Publish () ["a", "c"]).2) ∧
    (["a", "c"].countP subAB.accepts = 1 →
      matchingOffers subAB (lpTwo.Publish () ["a", "c"]).2 = 1)) :=
  ⟨by unfold LPoll.KeyedById; decide, by decide,
    Publish_buffers_once_per_matching_position lpTwo (by unfold LPoll.KeyedById; decide) ()
      ["a", "c"] "s1" subAB (by decide)⟩

/-- C10: removal is idempotent.  When `id` is not a key of the map, `Drop(id)` leaves the map
as it is and dispatches no call, and so does the expiry callback called with `id`.  For
every state and `id`, a sequence of one or more `Drop(id)` and expiry callbacks on `id` (so
`Drop` twice, `Drop` then expiry, expiry then `Drop`) leaves the map of a single removal, in
which `id` is absent and every other entry is as before. -/
theorem removal_idempotent (lp : LPoll) (id : String) :
    (id ∉ lp.subs.keys → lp.Drop id = (lp, []) ∧ lp.onExpire id = lp) ∧
    (∀ (r r0 : Removal) (rs : List Removal),
      lp.removeAll id (r :: rs) = lp.remove id r0) ∧
    ((lp.Drop id).1.Drop id = ((lp.Drop id).1, [])) ∧
    ((lp.Drop id).1.onExpire id = (lp.Drop id).1) ∧
    ((lp.onExpire id).Drop id = (lp.onExpire id, [])) ∧
    (∀ r : Removal, id ∉ (lp.remove id r).subs.keys ∧
      ∀ e, e ∈ (lp.remove id r).subs.entries ↔ e ∈ lp.subs.entries ∧ e.1 ≠ id) := by
  have hnone : ∀ l : LPoll, id ∉ l.subs.keys → l.Drop id = (l, []) := by
    intro l hl
    unfold LPoll.Drop
    rw [GoMap.get?_eq_none_iff.2 hl]
  have hexp : id ∉ (lp.onExpire id).subs.keys := GoMap.not_mem_keys_delete lp.subs id
  refine ⟨fun h => ⟨hnone lp h, ?_⟩, ?_, ?_, ?_, hnone _ hexp, ?_⟩
  · show ({ subs := lp.subs.delete id } : LPoll) = lp
    rw [GoMap.delete_of_not_mem h]
  · intro r r0 rs
    rw [removeAll_cons, remove_eq_onExpire]
  · exact hnone _ (by rw [Drop_fst]; exact hexp)
  · rw [Drop_fst, onExpire_onExpire]
  · intro r
    rw [remove_eq_onExpire]
    exact ⟨hexp, fun e => GoMap.mem_eraseKey⟩

/-- C11: `Shutdown()` is a bulk drop and leaves the registry usable: a `Subscribe` made after
it returns the id of the new subscription, `List()` then holds that id and no other, and `Get`
on that id returns a nil error with the channel of `Get` called on the new subscription. -/
theorem Subscribe_after_Shutdown (lp : LPoll) (fresh : String) (timeout : Duration)
    (topics : List String) :
    ((lp.Shutdown).1.Subscribe fresh timeout topics).2
      = (NewSub fresh timeout Callback.deleteFromSubs topics).id ∧
    (((lp.Shutdown).1.Subscribe fresh timeout topics).1.List).2
      = [((lp.Shutdown).1.Subscribe fresh timeout topics).2] ∧
    ∀ w, (((lp.Shutdown).1.Subscribe fresh timeout topics).1.Get
        ((lp.Shutdown).1.Subscribe fresh timeout topics).2 w).2
      = (some ⟨NewSub fresh timeout Callback.deleteFromSubs topics, w⟩, none) := by
  have he : (lp.Shutdown).1.subs.entries = [] := (shutdown_loop lp.subs.entries lp [] rfl).1
  have hs : ((lp.Shutdown).1.Subscribe fresh timeout topics).1.subs.entries
      = [(fresh, NewSub fresh timeout Callback.deleteFromSubs topics)] := by
    show GoMap.eraseKey fresh (lp.Shutdown).1.subs.entries ++ _ = _
    rw [he]
    rfl
  refine ⟨rfl, ?_, fun w => ?_⟩
  · rw [List_eq_keys]
    unfold GoMap.keys
    rw [hs]
    rfl
  · exact congrArg Prod.snd (Get_of_mem (by rw [hs]; exact List.mem_singleton.2 rfl) w)

/-- C14: `List()`, `Topics()`, `Get(id, w)` and `Publish(data, topics...)` leave the map as it
was, with the same keys bound to the same subscriptions, whether or not `Get` finds the id
and whatever the published topics are; `Publish` returns no error, and when no registered
subscription has one of the given topics, none of its offers is one that a subscription
buffers. -/
theorem reads_and_Publish_leave_the_map (lp : LPoll) (id : String) (w : Duration) (data : δ)
    (topics : List String) :
    (lp.List).1 = lp ∧ (lp.Topics).1 = lp ∧ (lp.Get id w).1 = lp ∧
    (lp.Publish data topics).1 = lp ∧
    (lp.Get id w).1.subs.entries = lp.subs.entries ∧
    (lp.Publish data topics).1.subs.entries = lp.subs.entries ∧
    ((∀ sub ∈ lp.subs.values, ∀ t ∈ topics, t ∉ sub.topics) →
      ∀ sub, matchingOffers sub (lp.Publish data topics).2 = 0) := by
  have hg : (lp.Get id w).1 = lp := by
    unfold LPoll.Get
    cases lp.subs.get? id <;> rfl
  refine ⟨rfl, rfl, hg, rfl, by rw [hg], rfl, fun h sub => ?_⟩
  unfold matchingOffers
  rw [List.countP_eq_zero]
  intro o ho
  obtain ⟨hs, ht, _⟩ := (Publish_calls_mem lp data topics) o ho
  intro hc
  have hc2 : o.sub = sub ∧ sub.accepts o.topic = true := by simpa using hc
  have hmem : o.topic ∈ sub.topics := by simpa [Sub.accepts] using hc2.2
  exact h sub (hc2.1 ▸ hs) o.topic ht hmem

/-- C15: removals and insertions touch only their own id.  For `other` different from `id`,
after `Drop(id)` and after the expiry callback called with `id`, `other` is a key exactly when
it was one before and is bound to the same subscription; every `Drop` call that `Drop(id)`
dispatches is on the subscription stored under `id`, so, subscriptions being stored under
their own ids, none is on the subscription stored under `other`.  After `Subscribe`, every id
different from the returned one is bound as before. -/
theorem mutations_touch_only_their_id (lp : LPoll) (id other : String) (hne : other ≠ id) :
    ((lp.Drop id).1.subs.get? other = lp.subs.get? other) ∧
    (other ∈ (lp.Drop id).1.subs.keys ↔ other ∈ lp.subs.keys) ∧
    ((lp.onExpire id).subs.get? other = lp.subs.get? other) ∧
    (other ∈ (lp.onExpire id).subs.keys ↔ other ∈ lp.subs.keys) ∧
    (∀ c ∈ (lp.Drop id).2, (id, c.sub) ∈ lp.subs.entries) ∧
    (lp.KeyedById → ∀ sub, (other, sub) ∈ lp.subs.entries → (⟨sub⟩ : DropCall) ∉ (lp.Drop id).2) ∧
    (∀ (fresh : String) (timeout : Duration) (topics : List String),
      other ≠ (lp.Subscribe fresh timeout topics).2 →
        (lp.Subscribe fresh timeout topics).1.subs.get? other = lp.subs.get? other) := by
  have hkeys : ∀ {m m' : GoMap Sub}, m'.get? other = m.get? other →
      (other ∈ m'.keys ↔ other ∈ m.keys) := by
    intro m m' h
    rw [← not_iff_not, ← GoMap.get?_eq_none_iff, ← GoMap.get?_eq_none_iff, h]
  have hexp : (lp.onExpire id).subs.get? other = lp.subs.get? other :=
    GoMap.get?_delete_ne lp.subs hne
  have hdrop : (lp.Drop id).1.subs.get? other = lp.subs.get? other := by
    rw [Drop_fst]; exact hexp
  have hcalls : ∀ c ∈ (lp.Drop id).2, (id, c.sub) ∈ lp.subs.entries := by
    intro c hc
    unfold LPoll.Drop at hc
    cases hg : lp.subs.get? id with
    | none => rw [hg] at hc; exact absurd hc (List.not_mem_nil c)
    | some sub =>
      rw [hg] at hc
      rw [List.mem_singleton.1 hc]
      exact GoMap.get?_eq_some_iff.1 hg
  refine ⟨hdrop, hkeys hdrop, hexp, hkeys hexp, hcalls, ?_, ?_⟩
  · intro hk sub hs hc
    have h1 := hk _ hs
    have h2 := hk _ (hcalls _ hc)
    exact hne (h1.trans h2.symm)
  · intro fresh timeout topics hf
    exact GoMap.get?_set_ne lp.subs _ hf

/-- Witness of `mutations_touch_only_their_id`: the ids `s1` and `s2` of the registry of
`subAB` and `subC`. -/
theorem mutations_touch_only_their_id_witness :
    "s2" ≠ "s1" ∧
    ((lpTwo.Drop "s1").1.subs.get? "s2" = lpTwo.subs.get? "s2") ∧
    ("s2" ∈ (lpTwo.Drop "s1").1.subs.keys ↔ "s2" ∈ lpTwo.subs.keys) ∧
    ((lpTwo.onExpire "s1").subs.get? "s2" = lpTwo.subs.get? "s2") ∧
    ("s2" ∈ (lpTwo.onExpire "s1").subs.keys ↔ "s2" ∈ lpTwo.subs.keys) ∧
    (∀ c ∈ (lpTwo.Drop "s1").2, ("s1", c.sub) ∈ lpTwo.subs.entries) ∧
    (lpTwo.KeyedById → ∀ sub, ("s2", sub) ∈ lpTwo.subs.entries →
      (⟨sub⟩ : DropCall) ∉ (lpTwo.Drop "s1").2) ∧
    (∀ (fresh : String) (timeout : Duration) (topics : List String),
      "s2" ≠ (lpTwo.Subscribe fresh timeout topics).2 →
        (lpTwo.Subscribe fresh timeout topics).1.subs.get? "s2" = lpTwo.subs.get? "s2") :=
  ⟨by decide, mutations_touch_only_their_id lpTwo "s1" "s2" (by decide)⟩

/-- C12, as stated, fails: in `Drop("s1")` on the registry of `subAB` and `subC`, the close
of `subAB` is dispatched while the mutex is free and the removal of `s1` runs in the critical
section taken afterwards, so the two are not inside one critical section; and the expiry
callback dispatches no close at all. -/
theorem teardown_in_one_section_counterexample :
    ("s1", subAB) ∈ lpTwo.subs.entries ∧
    (Event.goDrop subAB, none) ∈ sections (lpTwo.DropRun "s1").2 ∧
    (Event.delete "s1", some 0) ∈ sections (lpTwo.DropRun "s1").2 ∧
    ¬ SameSection (lpTwo.DropRun "s1").2 (Event.goDrop subAB) (Event.delete "s1") ∧
    (∀ sub, Event.goDrop sub ∉ (lpTwo.onExpireRun "s1").2) := by
  have hs : sections (lpTwo.DropRun "s1").2
      = [(Event.lookup "s1", none), (Event.goDrop subAB, none), (Event.lock, none),
         (Event.delete "s1", some 0), (Event.unlock, some 0)] := by decide
  refine ⟨by decide, by decide, by decide, ?_, ?_⟩
  · rintro ⟨k, h1, _⟩
    rw [hs] at h1
    simp at h1
  · intro sub h
    simp [LPoll.onExpireRun] at h

/-- C12, amended: `Shutdown` dispatches the close of each registered subscription and removes
its id inside one critical section; `Drop` on a registered id dispatches the close while the
mutex is free and removes the id in the critical section it takes afterwards; the expiry
callback removes the id inside a critical section and dispatches no close.  When any of the
three returns, the id is not in the map, so a `Get` made after the return fails. -/
theorem teardown_sections (lp : LPoll) (id : String) :
    (∀ e ∈ lp.subs.entries,
      SameSection (lp.ShutdownRun).2 (Event.goDrop e.2) (Event.delete e.1)) ∧
    (∀ sub, (id, sub) ∈ lp.subs.entries →
      sections (lp.DropRun id).2
        = [(Event.lookup id, none), (Event.goDrop sub, none), (Event.lock, none),
           (Event.delete id, some 0), (Event.unlock, some 0)]) ∧
    sections (lp.onExpireRun id).2
      = [(Event.lock, none), (Event.delete id, some 0), (Event.unlock, some 0)] ∧
    ((lp.ShutdownRun).1 = (lp.Shutdown).1 ∧ (lp.DropRun id).1 = (lp.Drop id).1 ∧
      (lp.onExpireRun id).1 = lp.onExpire id) ∧
    (∀ w, ((lp.ShutdownRun).1.Get id w).2.2 ≠ none ∧ ((lp.DropRun id).1.Get id w).2.2 ≠ none ∧
      ((lp.onExpireRun id).1.Get id w).2.2 ≠ none) := by
  have hexp : id ∉ (lp.onExpire id).subs.keys := GoMap.not_mem_keys_delete lp.subs id
  have hfail : ∀ (l : LPoll) (w : Duration), id ∉ l.subs.keys → (l.Get id w).2.2 ≠ none := by
    intro l w hl
    rw [Get_of_not_mem hl]
    simp
  refine ⟨fun e he => ⟨0, ?_, ?_⟩, fun sub hs => ?_, ?_,
    ⟨(ShutdownRun_refines lp).1, (DropRun_refines lp id).1, rfl⟩, fun w => ⟨?_, ?_, ?_⟩⟩
  · rw [ShutdownRun_log, sections_locked _ (Plain_shutdown_body lp)]
    refine List.mem_cons_of_mem _ (List.mem_append_left _ (List.mem_map.2 ⟨_, ?_, rfl⟩))
    exact List.mem_cons_of_mem _ (List.mem_flatMap.2 ⟨e, he, by simp⟩)
  · rw [ShutdownRun_log, sections_locked _ (Plain_shutdown_body lp)]
    refine List.mem_cons_of_mem _ (List.mem_append_left _ (List.mem_map.2 ⟨_, ?_, rfl⟩))
    exact List.mem_cons_of_mem _ (List.mem_flatMap.2 ⟨e, he, by simp⟩)
  · unfold LPoll.DropRun
    rw [GoMap.get?_eq_some_iff.2 hs]
    simp [sections, stamp]
  · simp [LPoll.onExpireRun, sections, stamp]
  · refine hfail _ w ?_
    have he : (lp.Shutdown).1.subs.entries = [] := (shutdown_loop lp.subs.entries lp [] rfl).1
    rw [(ShutdownRun_refines lp).1]
    show id ∉ List.map Prod.fst (lp.Shutdown).1.subs.entries
    rw [he]
    exact List.not_mem_nil id
  · refine hfail _ w ?_
    rw [(DropRun_refines lp id).1, Drop_fst]
    exact hexp
  · exact hfail _ w hexp

/-- C13, as stated, fails: `Get("s1", 3)` and `Drop("s1")` on the registry of `subAB` and
`subC` read the map (`lp.subs[id]`) while the mutex is free; `Get` never takes the mutex. -/
theorem lock_discipline_counterexample :
    (lpTwo.GetRun "s1" 3).2 = [Event.lookup "s1", Event.callGet subAB 3] ∧
    ¬ Guarded (lpTwo.GetRun "s1" 3).2 ∧
    (Event.lookup "s1", none) ∈ sections (lpTwo.DropRun "s1").2 ∧
    ¬ Guarded (lpTwo.DropRun "s1").2 := by
  refine ⟨by decide, ?_, by decide, ?_⟩
  · intro h
    exact absurd (h (Event.lookup "s1", none) (by decide) rfl) (by decide)
  · intro h
    exact absurd (h (Event.lookup "s1", none) (by decide) rfl) (by decide)

/-- C13, amended: every write of the map (the insertion of `Subscribe`, the deletions of
`Drop`, `Shutdown` and the expiry callback) and every `range` over it (`Publish`, `Shutdown`,
`List`, `Topics`) runs while the mutex is held, and every mutex taken is released when the
operation returns.  The lookups of `Get` and of the presence check of `Drop` run while the
mutex is free: `Get` never takes it, so it delegates to `sub.Get` without holding it, and
`Drop` takes it for its delete only. -/
theorem lock_discipline (lp : LPoll) (id : String) (w : Duration) (fresh : String)
    (timeout : Duration) (topics : List String) :
    (Guarded (lp.PublishRun topics).2 ∧ Guarded (lp.SubscribeRun fresh timeout topics).2 ∧
      Guarded (lp.ShutdownRun).2 ∧ Guarded (lp.ListRun).2 ∧ Guarded (lp.TopicsRun).2 ∧
      Guarded (lp.onExpireRun id).2) ∧
    (LockFree (lp.GetRun id w).2 ∧ (Event.lookup id, none) ∈ sections (lp.GetRun id w).2) ∧
    (WritesGuarded (lp.DropRun id).2 ∧ (Event.lookup id, none) ∈ sections (lp.DropRun id).2) ∧
    (balancedFrom false (lp.PublishRun topics).2 = true ∧
      balancedFrom false (lp.SubscribeRun fresh timeout topics).2 = true ∧
      balancedFrom false (lp.ShutdownRun).2 = true ∧ balancedFrom false (lp.ListRun).2 = true ∧
      balancedFrom false (lp.TopicsRun).2 = true ∧
      balancedFrom false (lp.onExpireRun id).2 = true ∧
      balancedFrom false (lp.GetRun id w).2 = true ∧
      balancedFrom false (lp.DropRun id).2 = true) := by
  have hins : ∀ e : Event, Plain [e] ↔ (e ≠ Event.lock ∧ e ≠ Event.unlock) := by
    intro e
    constructor
    · intro h; exact h e (List.mem_singleton.2 rfl)
    · intro h x hx; rw [List.mem_singleton.1 hx]; exact h
  have hsub : Plain [Event.insert (NewSub fresh timeout Callback.deleteFromSubs topics).id] :=
    (hins _).2 ⟨Event.noConfusion, Event.noConfusion⟩
  have hdel : Plain [Event.delete id] := (hins _).2 ⟨Event.noConfusion, Event.noConfusion⟩
  refine ⟨⟨?_, Guarded_locked _ hsub, ?_, ?_, ?_, Guarded_locked _ hdel⟩, ⟨?_, ?_⟩, ⟨?_, ?_⟩,
    ⟨?_, balanced_locked _ hsub, ?_, ?_, ?_, balanced_locked _ hdel, ?_, ?_⟩⟩
  · rw [PublishRun_log]; exact Guarded_locked _ (Plain_publish_body lp topics)
  · rw [ShutdownRun_log]; exact Guarded_locked _ (Plain_shutdown_body lp)
  · rw [ListRun_log]; exact Guarded_locked _ (Plain_list_body lp)
  · rw [TopicsRun_log, ListRun_log]; exact Guarded_locked _ (Plain_list_body lp)
  · unfold LPoll.GetRun
    cases lp.subs.get? id with
    | none =>
      intro p hp
      simp [sections, stamp] at hp
      subst hp
      exact ⟨rfl, Event.noConfusion⟩
    | some sub =>
      intro p hp
      simp [sections, stamp] at hp
      rcases hp with rfl | rfl <;> exact ⟨rfl, Event.noConfusion⟩
  · unfold LPoll.GetRun
    cases lp.subs.get? id <;> simp [sections, stamp]
  · unfold LPoll.DropRun
    cases lp.subs.get? id with
    | none =>
      intro p hp hw
      simp [sections, stamp] at hp
      subst hp
      simp [Event.isWrite] at hw
    | some sub =>
      intro p hp hw
      simp [sections, stamp] at hp
      rcases hp with rfl | rfl | rfl | rfl | rfl <;>
        first | rfl | (simp [Event.isWrite] at hw)
  · unfold LPoll.DropRun
    cases lp.subs.get? id <;> simp [sections, stamp]
  · rw [PublishRun_log]; exact balanced_locked _ (Plain_publish_body lp topics)
  · rw [ShutdownRun_log]; exact balanced_locked _ (Plain_shutdown_body lp)
  · rw [ListRun_log]; exact balanced_locked _ (Plain_list_body lp)
  · rw [TopicsRun_log, ListRun_log]; exact balanced_locked _ (Plain_list_body lp)
  · unfold LPoll.GetRun
    cases lp.subs.get? id <;> simp [balancedFrom]
  · unfold LPoll.DropRun
    cases lp.subs.get? id <;> simp [balancedFrom]

end lpoll
